import Mathlib

/-!
Verification of `tools/generate_flecs_src_files.py`.

The tool is modelled shallowly: Python strings become `List Char`, the
filesystem becomes explicit `Option (List Char)` contents for the target
(`build.zig`) and backup (`build.zig.bak`) files, and the directory tree
seen by `Path.rglob` becomes a list of absolute file-path strings.  The
single regular expression of the source,
`const\s+src_files\s*=\s*\[\_]\[\]const\s+u8\{[\s\S]*?\n\};\n`, is embedded
as a direct matcher (`matchPatAt`) and `re.subn` as `subnGo`; the `\s`
class is modelled on the ASCII whitespace characters, which is exhaustive
for the build-configuration texts the tool works over.
-/

namespace FlecsGen

/-- Python strings are modelled as lists of characters. -/
abbrev Str : Type := List Char

/-- Coerce a Lean string literal to the model representation. -/
def str (s : String) : Str := s.toList

/-- ASCII whitespace, the characters the regex class `\s` matches here. -/
def isPySpace (c : Char) : Bool :=
  c == ' ' || c == '\t' || c == '\n' || c == '\r' || c == '\x0b' || c == '\x0c'

/-- `lPre pat s` is true when `pat` is a leading substring of `s`
(Python `s.startswith(pat)`). -/
def lPre : Str → Str → Bool
  | [], _ => true
  | _ :: _, [] => false
  | a :: pa, b :: pb => a == b && lPre pa pb

/-- Consume the literal `pat` from the front of `s`, returning the rest. -/
def lit : Str → Str → Option Str
  | [], s => some s
  | _ :: _, [] => none
  | a :: pa, b :: s => if a == b then lit pa s else none

/-- Greedily consume whitespace (regex `\s*`). -/
def ws0 : Str → Str
  | [] => []
  | c :: s => if isPySpace c then ws0 s else c :: s

/-- Consume at least one whitespace character (regex `\s+`). -/
def ws1 : Str → Option Str
  | [] => none
  | c :: s => if isPySpace c then some (ws0 s) else none

/-- Lazily scan for the first occurrence of `tail` (regex `[\s\S]*?` followed
by a literal), returning the suffix after that occurrence. -/
def dropThrough (tail : Str) : Str → Option Str
  | [] => lit tail []
  | c :: s =>
    match lit tail (c :: s) with
    | some r => some r
    | none => dropThrough tail s

/-- The closing token sequence of the regex: `\n\};\n`. -/
def nlTail : Str := str "\n\x7d;\n"

/-- Try the source's block regex at the current position; on success return
the text remaining after the matched region. -/
def matchPatAt (s : Str) : Option Str :=
  (lit (str "const") s).bind fun s1 =>
    (ws1 s1).bind fun s2 =>
      (lit (str "src_files") s2).bind fun s3 =>
        (lit (str "=") (ws0 s3)).bind fun s5 =>
          (lit (str "[_][]const") (ws0 s5)).bind fun s7 =>
            (ws1 s7).bind fun s8 =>
              (lit (str "u8\x7b") s8).bind fun s9 =>
                dropThrough nlTail s9

theorem lit_length : ∀ {p s r : Str}, lit p s = some r → r.length + p.length = s.length := by
  intro p
  induction p with
  | nil =>
    intro s r h
    simp only [lit, Option.some.injEq] at h
    simp [← h]
  | cons a pa ih =>
    intro s r h
    cases s with
    | nil => simp [lit] at h
    | cons b s' =>
      simp only [lit] at h
      split at h
      · have := ih h
        simp only [List.length_cons]
        omega
      · exact absurd h (by simp)

theorem ws0_length : ∀ s : Str, (ws0 s).length ≤ s.length := by
  intro s
  induction s with
  | nil => simp [ws0]
  | cons c s' ih =>
    simp only [ws0]
    split
    · exact Nat.le_succ_of_le ih
    · simp

theorem ws1_length : ∀ {s r : Str}, ws1 s = some r → r.length < s.length := by
  intro s r h
  cases s with
  | nil => simp [ws1] at h
  | cons c s' =>
    simp only [ws1] at h
    split at h
    · simp only [Option.some.injEq] at h
      subst h
      exact Nat.lt_succ_of_le (ws0_length s')
    · exact absurd h (by simp)

theorem dropThrough_length : ∀ {t s r : Str}, dropThrough t s = some r → r.length ≤ s.length := by
  intro t s
  induction s with
  | nil =>
    intro r h
    simp only [dropThrough] at h
    have := lit_length h
    omega
  | cons c s' ih =>
    intro r h
    simp only [dropThrough] at h
    cases hl : lit t (c :: s') with
    | some r' =>
      rw [hl] at h
      simp only [Option.some.injEq] at h
      subst h
      have := lit_length hl
      omega
    | none =>
      rw [hl] at h
      exact Nat.le_succ_of_le (ih h)

theorem matchPatAt_length : ∀ {s r : Str}, matchPatAt s = some r → r.length < s.length := by
  intro s r h
  simp only [matchPatAt, Option.bind_eq_some] at h
  obtain ⟨s1, h1, s2, h2, s3, h3, s5, h5, s7, h7, s8, h8, s9, h9, hd⟩ := h
  have l1 := lit_length h1
  have l2 := ws1_length h2
  have l3 := lit_length h3
  have l5 := lit_length h5
  have l7 := lit_length h7
  have l8 := ws1_length h8
  have l9 := lit_length h9
  have ld := dropThrough_length hd
  have w3 := ws0_length s3
  have w5 := ws0_length s5
  simp only [str] at l1 l3 l5 l7 l9
  omega

/-- Fuelled worker for `re.subn` with the source's pattern: scan left to
right, at each position first try the pattern; on a match emit `repl` and
continue after the matched region, otherwise keep the character and move on.
Returns the new text and the number of substitutions.  The fuel only serves
structural recursion; every step consumes at least one character, so fuel
`s.length + 1` is never exhausted. -/
def subnFuel (repl : Str) : Nat → Str → Str × Nat
  | 0, s => (s, 0)
  | fuel + 1, s =>
    match matchPatAt s with
    | some r => (repl ++ (subnFuel repl fuel r).1, (subnFuel repl fuel r).2 + 1)
    | none =>
      match s with
      | [] => ([], 0)
      | c :: s' => (c :: (subnFuel repl fuel s').1, (subnFuel repl fuel s').2)

/-- `re.subn(pattern, repl, s)` for the source's fixed pattern. -/
def subnGo (repl : Str) (s : Str) : Str × Nat := subnFuel repl (s.length + 1) s

theorem subnFuel_congr {repl : Str} :
    ∀ {f1 : Nat} {f2 : Nat} {s : Str}, s.length < f1 → s.length < f2 →
      subnFuel repl f1 s = subnFuel repl f2 s := by
  intro f1
  induction f1 with
  | zero => intro f2 s h1 _; omega
  | succ g1 ih =>
    intro f2 s h1 h2
    cases f2 with
    | zero => omega
    | succ g2 =>
      cases hm : matchPatAt s with
      | some r =>
        have hr := matchPatAt_length hm
        simp only [subnFuel, hm]
        rw [ih (show r.length < g1 by omega) (show r.length < g2 by omega)]
      | none =>
        cases s with
        | nil => simp [subnFuel, hm]
        | cons c s' =>
          simp only [List.length_cons] at h1 h2
          simp only [subnFuel, hm]
          rw [ih (show s'.length < g1 by omega) (show s'.length < g2 by omega)]

theorem subnGo_match {repl s r : Str} (h : matchPatAt s = some r) :
    subnGo repl s = (repl ++ (subnGo repl r).1, (subnGo repl r).2 + 1) := by
  have hr := matchPatAt_length h
  have step : subnGo repl s =
      (repl ++ (subnFuel repl s.length r).1, (subnFuel repl s.length r).2 + 1) := by
    simp only [subnGo, subnFuel, h]
  rw [step, subnFuel_congr (show r.length < s.length from hr) (Nat.lt_succ_self _)]
  rfl

theorem subnGo_nil {repl : Str} : subnGo repl [] = ([], 0) := rfl

theorem subnGo_cons_none {repl : Str} {c : Char} {s' : Str}
    (h : matchPatAt (c :: s') = none) :
    subnGo repl (c :: s') = (c :: (subnGo repl s').1, (subnGo repl s').2) := by
  simp only [subnGo, subnFuel, h, List.length_cons]

example : matchPatAt (str "const src_files = [_][]const u8\x7b\nx\n\x7d;\nrest") = some (str "rest") := by decide

example : subnGo (str "R") (str "a const src_files = [_][]const u8\x7b\nx\n\x7d;\nb") = (str "a R" ++ str "b", 1) := by decide

/-- No match of the pattern starts at any position of `s`. -/
def noMatchAll : Str → Bool
  | [] => true
  | c :: s => (matchPatAt (c :: s)).isNone && noMatchAll s

/-- No match of the pattern starts at any position inside `p` when the
text continues with `s` after it. -/
def noMatchIn : Str → Str → Bool
  | [], _ => true
  | c :: p, s => (matchPatAt (c :: (p ++ s))).isNone && noMatchIn p s

theorem subnGo_of_noMatchAll {repl : Str} :
    ∀ {s : Str}, noMatchAll s = true → subnGo repl s = (s, 0) := by
  intro s
  induction s with
  | nil => intro _; rfl
  | cons c s' ih =>
    intro h
    simp only [noMatchAll, Bool.and_eq_true, Option.isNone_iff_eq_none] at h
    rw [subnGo_cons_none h.1, ih h.2]

theorem subnGo_append_of_noMatchIn {repl : Str} :
    ∀ {pre s : Str}, noMatchIn pre s = true →
      subnGo repl (pre ++ s) = (pre ++ (subnGo repl s).1, (subnGo repl s).2) := by
  intro pre
  induction pre with
  | nil => intro s _; simp
  | cons c p ih =>
    intro s h
    simp only [noMatchIn, Bool.and_eq_true, Option.isNone_iff_eq_none] at h
    rw [List.cons_append, subnGo_cons_none h.1, ih h.2, List.cons_append]

/-- The central substitution shape: a text consisting of a clean preamble,
one matched region, and a clean remainder is rewritten to preamble,
replacement, remainder with substitution count 1. -/
theorem subnGo_structured {repl pre mid post : Str}
    (hpre : noMatchIn pre (mid ++ post) = true)
    (hmid : matchPatAt (mid ++ post) = some post)
    (hpost : noMatchAll post = true) :
    subnGo repl (pre ++ (mid ++ post)) = (pre ++ (repl ++ post), 1) := by
  rw [subnGo_append_of_noMatchIn hpre, subnGo_match hmid, subnGo_of_noMatchAll hpost]

/-- Code-point comparison of strings, Python's `<` on `str`. -/
def lexLt : Str → Str → Bool
  | [], [] => false
  | [], _ :: _ => true
  | _ :: _, [] => false
  | a :: sa, b :: sb =>
    if a.toNat < b.toNat then true
    else if a.toNat = b.toNat then lexLt sa sb
    else false

/-- Code-point `≤` on strings. -/
def lexLe : Str → Str → Bool
  | [], _ => true
  | _ :: _, [] => false
  | a :: sa, b :: sb =>
    if a.toNat < b.toNat then true
    else if a.toNat = b.toNat then lexLe sa sb
    else false

/-- Insert into a `lexLe`-sorted list, keeping it sorted. -/
def insertLe (a : Str) : List Str → List Str
  | [] => [a]
  | b :: bs => if lexLe a b then a :: b :: bs else b :: insertLe a bs

/-- Python `sorted` on a list of strings (insertion sort; the order is
total and antisymmetric, so any correct sort produces the same list). -/
def sortLe : List Str → List Str
  | [] => []
  | a :: as => insertLe a (sortLe as)

/-- `ZIG_ARRAY_HEADER` of the source. -/
def ZIG_ARRAY_HEADER : Str := str "const src_files = [_][]const u8\x7b"

/-- The recognized path stem `native/flecs/src/` of `format_zig_array`. -/
def nfsPfx : Str := str "native/flecs/src/"

/-- Python `s.split('/')`. -/
def splitSlash : Str → List Str
  | [] => [[]]
  | c :: s =>
    if c == '/' then [] :: splitSlash s
    else
      match splitSlash s with
      | [] => [[c]]
      | g :: gs => (c :: g) :: gs

/-- The group label of a prefix-stripped path: `core` for a bare file name,
otherwise the first path segment (`parts[0]`). -/
def groupOf (rel : Str) : Str :=
  match splitSlash rel with
  | [] => str "core"
  | [_] => str "core"
  | p :: _ :: _ => p

/-- `groups.setdefault(g, []).append(e)` on an insertion-ordered dict
modelled as an association list. -/
def addEntry : List (Str × List Str) → Str → Str → List (Str × List Str)
  | [], g, e => [(g, [e])]
  | (k, es) :: rest, g, e =>
    if k = g then (k, es ++ [e]) :: rest else (k, es) :: addEntry rest g e

/-- The grouping loop of `format_zig_array`: entries not starting with
`native/flecs/src/` are skipped, the others are filed under their group. -/
def buildGroups (entries : List Str) : List (Str × List Str) :=
  entries.foldl
    (fun acc e =>
      if lPre nfsPfx e then addEntry acc (groupOf (e.drop nfsPfx.length)) e else acc)
    []

/-- `groups[g]` (with `[]` for an absent key, which never happens for the
keys the renderer iterates over). -/
def lookupG (groups : List (Str × List Str)) (g : Str) : List Str :=
  match groups.find? (fun kv => kv.1 == g) with
  | some kv => kv.2
  | none => []

/-- The ordered group labels: `core` first when present, then the remaining
keys sorted lexicographically. -/
def orderedGroups (groups : List (Str × List Str)) : List Str :=
  (if groups.any (fun kv => kv.1 == str "core") then [str "core"] else []) ++
    sortLe ((groups.map Prod.fst).filter (fun k => !(k == str "core")))

/-- The lines rendered for one group: a comment naming the group, the
sorted quoted entries, and a blank line. -/
def renderGroup (groups : List (Str × List Str)) (g : Str) : List Str :=
  (str "    // " ++ g) ::
    (((sortLe (lookupG groups g)).map fun p => str "    \"../../" ++ p ++ str "\",") ++ [[]])

/-- `'\n'.join(lines)`. -/
def joinNl : List Str → Str
  | [] => []
  | [l] => l
  | l :: ls => l ++ '\n' :: joinNl ls

/-- `format_zig_array` of the source: header, fixed helper entry, blank
line, one sub-block per group, closing delimiter, joined by newlines. -/
def format_zig_array (entries : List Str) : Str :=
  let groups := buildGroups entries
  joinNl
    (ZIG_ARRAY_HEADER ::
      str "    \"../../native/flecs_helpers.c\"," ::
      [] ::
      (((orderedGroups groups).flatMap (renderGroup groups)) ++ [str "\x7d;"]))

/-- `str(p).replace('\\', '/')`. -/
def normSlashes (p : Str) : Str := p.map (fun c => if c == '\\' then '/' else c)

/-- `p.relative_to(repoRoot)` with the source's fallback: when `repoRoot`
is not an ancestor of `p` the undiminished path is kept. -/
def relTo (repoRoot p : Str) : Str :=
  if lPre (repoRoot ++ ['/']) p then p.drop (repoRoot.length + 1) else p

/-- `s.endswith(suf)`. -/
def endsWithL (suf s : Str) : Bool := lPre suf.reverse s.reverse

/-- Lexicographic comparison of component lists: Python's `<=` on lists of
strings, deciding elementwise by the code-point order of the components. -/
def lexLeL : List Str → List Str → Bool
  | [], _ => true
  | _ :: _, [] => false
  | a :: as, b :: bs => lexLt a b || (a == b && lexLeL as bs)

/-- Python's comparison of `Path` objects: a path compares by the list of
slash-separated components of its string, not by the whole string — so
`a/b.c` sorts before `a.c` and `foo/x.c` before `foo-bar/x.c`, although
whole-string code-point order puts each pair the other way around. -/
def pathLe (a b : Str) : Bool := lexLeL (splitSlash a) (splitSlash b)

/-- Insert into a `pathLe`-sorted list, keeping it sorted. -/
def insertPath (a : Str) : List Str → List Str
  | [] => [a]
  | b :: bs => if pathLe a b then a :: b :: bs else b :: insertPath a bs

/-- Python `sorted` on a list of `Path` objects (insertion sort over the
componentwise path order; the order is total and antisymmetric, so any
correct sort produces the same list). -/
def sortPaths : List Str → List Str
  | [] => []
  | a :: as => insertPath a (sortPaths as)

/-- Errors of the tool; each one is a `SystemExit` (or re-raised exception)
that terminates the process with non-zero status. -/
inductive ApplyErr where
  | missingSource
  | patternNotFound
  | neitherExists
  | writeFailed
deriving DecidableEq, Repr

/-- `find_c_files` of the source over an abstract directory tree: the tree
is the list of absolute path strings of the existing regular files (a
directory whose own name happens to match `*.c` is outside this model).
`rootExists` mirrors `root.exists()`.  Discovered are the files strictly
below `root` whose name ends in `.c`, sorted as `Path` objects — that is,
componentwise on the pre-relativization paths — then relativized against
the script's repository root with fallback to the full path, and
separator-normalized. -/
def find_c_files (rootExists : Bool) (root repoRoot : Str) (tree : List Str) :
    Except ApplyErr (List Str) :=
  if rootExists then
    .ok ((sortPaths (tree.filter fun p => lPre (root ++ ['/']) p && endsWithL (str ".c") p)).map
      fun p => normSlashes (relTo repoRoot p))
  else .error .missingSource

deriving instance DecidableEq for Except

example : format_zig_array [] =
    str "const src_files = [_][]const u8\x7b\n    \"../../native/flecs_helpers.c\",\n\n\x7d;" := by decide

set_option maxRecDepth 4000 in
example : format_zig_array [str "native/flecs/src/b/x.c", str "native/flecs/src/a.c"] =
    str "const src_files = [_][]const u8\x7b\n    \"../../native/flecs_helpers.c\",\n\n    // core\n    \"../../native/flecs/src/a.c\",\n\n    // b\n    \"../../native/flecs/src/b/x.c\",\n\n\x7d;" := by decide

set_option maxRecDepth 4000 in
example : find_c_files true (str "/r/native/flecs/src") (str "/r")
    [str "/r/native/flecs/src/b/x.c", str "/r/native/flecs/src/a.c", str "/r/native/flecs/src/README.md"] =
    .ok [str "native/flecs/src/a.c", str "native/flecs/src/b/x.c"] := by decide

set_option maxRecDepth 4000 in
example : find_c_files true (str "/r/native/flecs/src") (str "/r")
    [str "/r/native/flecs/src/foo-bar/x.c", str "/r/native/flecs/src/a.c",
      str "/r/native/flecs/src/a/b.c", str "/r/native/flecs/src/foo/x.c"] =
    .ok [str "native/flecs/src/a/b.c", str "native/flecs/src/a.c",
      str "native/flecs/src/foo/x.c", str "native/flecs/src/foo-bar/x.c"] := by decide

/-- The pure core of `replace_block_in_build_paths`: substitute the block
in the text read from the input file, failing when the pattern is absent.
The written content is returned; the orchestrator decides where it goes. -/
def replace_block_in_build_paths (new_block txt : Str) : Except ApplyErr Str :=
  let res := subnGo (new_block ++ str "\n\n") txt
  if res.2 = 0 then .error .patternNotFound else .ok res.1

/-- Filesystem outcome of an apply attempt: content at the target path,
content at the backup path, and the process-level result. -/
structure ApplyOutcome where
  target : Option Str
  backup : Option Str
  result : Except ApplyErr Unit
deriving DecidableEq, Repr

/-- Patch-and-write with the orchestrator's `try/except` cleanup.  The
content of the read source (always the backup path by the time patching
runs) is `srcContent`; `backupNow` is what the backup path holds.  A
`SystemExit` from the patcher is raised before any write, so the cleanup
finds no target file.  `writeFault` injects the spec's
unexpected-failure-during-write: `some leftover` means `write_text` threw
after leaving `leftover` at the target; the cleanup then unlinks the target
(`unlinkOk = false` makes that unlink itself fail, which is suppressed) and
the original error is re-raised. -/
def applyPatch (generated srcContent : Str) (backupNow : Option Str)
    (writeFault : Option Str) (unlinkOk : Bool) : ApplyOutcome :=
  match replace_block_in_build_paths generated srcContent with
  | .error e => ⟨none, backupNow, .error e⟩
  | .ok newTxt =>
    match writeFault with
    | none => ⟨some newTxt, backupNow, .ok ()⟩
    | some leftover => ⟨if unlinkOk then none else some leftover, backupNow, .error .writeFailed⟩

/-- The apply branch of `main`: if the target exists it is moved onto the
backup path (overwriting any stale backup) and read from there; if only the
backup exists it is the read source; otherwise the apply is impossible. -/
def applyOnce (generated : Str) (target backup : Option Str)
    (writeFault : Option Str) (unlinkOk : Bool) : ApplyOutcome :=
  match target, backup with
  | some tc, _ => applyPatch generated tc (some tc) writeFault unlinkOk
  | none, some bc => applyPatch generated bc (some bc) writeFault unlinkOk
  | none, none => ⟨none, none, .error .neitherExists⟩

/-- Observable result of one run of the tool: what was printed to stdout,
the final target and backup contents, and the process result. -/
structure RunResult where
  printed : Option Str
  target : Option Str
  backup : Option Str
  result : Except ApplyErr Unit
deriving DecidableEq, Repr

/-- `main` of the source: discover, render, print, and optionally apply.
Discovery runs first; its failure aborts the run before any write. -/
def main (rootExists : Bool) (root repoRoot : Str) (tree : List Str)
    (applyFlag : Bool) (target backup : Option Str)
    (writeFault : Option Str) (unlinkOk : Bool) : RunResult :=
  match find_c_files rootExists root repoRoot tree with
  | .error e => ⟨none, target, backup, .error e⟩
  | .ok entries =>
    let generated := format_zig_array entries
    if applyFlag then
      let o := applyOnce generated target backup writeFault unlinkOk
      ⟨some generated, o.target, o.backup, o.result⟩
    else
      ⟨some generated, target, backup, .ok ()⟩

/-- Exit status of the process: `SystemExit` with a message (and any
re-raised exception) terminates with non-zero status. -/
def exitCode (r : RunResult) : Nat :=
  match r.result with
  | .ok _ => 0
  | .error _ => 1

theorem lexLe_cons_iff {x y : Char} {xs ys : Str} :
    lexLe (x :: xs) (y :: ys) = true ↔
      x.toNat < y.toNat ∨ (x.toNat = y.toNat ∧ lexLe xs ys = true) := by
  simp only [lexLe]
  split
  · rename_i h1; simp [h1]
  · split
    · rename_i h1 h2; simp [h1, h2]
    · rename_i h1 h2; simp [h1, h2]

theorem lexLe_total : ∀ a b : Str, lexLe a b = true ∨ lexLe b a = true := by
  intro a
  induction a with
  | nil => intro b; left; rfl
  | cons x xs ih =>
    intro b
    cases b with
    | nil => right; rfl
    | cons y ys =>
      simp only [lexLe_cons_iff]
      rcases Nat.lt_trichotomy x.toNat y.toNat with h | h | h
      · left; left; exact h
      · rcases ih ys with h2 | h2
        · left; right; exact ⟨h, h2⟩
        · right; right; exact ⟨h.symm, h2⟩
      · right; left; exact h

theorem lexLe_trans : ∀ {a b c : Str}, lexLe a b = true → lexLe b c = true → lexLe a c = true := by
  intro a
  induction a with
  | nil => intro b c _ _; rfl
  | cons x xs ih =>
    intro b c hab hbc
    cases b with
    | nil => simp [lexLe] at hab
    | cons y ys =>
      cases c with
      | nil => simp [lexLe] at hbc
      | cons z zs =>
        rw [lexLe_cons_iff] at hab hbc ⊢
        rcases hab with h1 | ⟨h1, h1'⟩
        · rcases hbc with h2 | ⟨h2, _⟩
          · left; omega
          · left; omega
        · rcases hbc with h2 | ⟨h2, h2'⟩
          · left; omega
          · right; exact ⟨by omega, ih h1' h2'⟩

theorem mem_insertLe {a x : Str} : ∀ {l : List Str}, x ∈ insertLe a l ↔ x = a ∨ x ∈ l := by
  intro l
  induction l with
  | nil => simp [insertLe]
  | cons b bs ih =>
    simp only [insertLe]
    split
    · simp [List.mem_cons]
    · simp only [List.mem_cons, ih]
      tauto

theorem insertLe_perm (a : Str) : ∀ l : List Str, (insertLe a l).Perm (a :: l) := by
  intro l
  induction l with
  | nil => simp [insertLe]
  | cons b bs ih =>
    simp only [insertLe]
    split
    · exact List.Perm.refl _
    · exact (ih.cons b).trans (List.Perm.swap a b bs)

theorem sortLe_perm : ∀ l : List Str, (sortLe l).Perm l := by
  intro l
  induction l with
  | nil => exact List.Perm.refl _
  | cons a as ih => exact (insertLe_perm a (sortLe as)).trans (ih.cons a)

theorem mem_sortLe {x : Str} {l : List Str} : x ∈ sortLe l ↔ x ∈ l :=
  (sortLe_perm l).mem_iff

theorem insertLe_pairwise {a : Str} :
    ∀ {l : List Str}, l.Pairwise (fun u v => lexLe u v = true) →
      (insertLe a l).Pairwise (fun u v => lexLe u v = true) := by
  intro l
  induction l with
  | nil => intro _; simp [insertLe]
  | cons b bs ih =>
    intro h
    rw [List.pairwise_cons] at h
    simp only [insertLe]
    split
    · rename_i hab
      rw [List.pairwise_cons]
      refine ⟨?_, List.pairwise_cons.mpr h⟩
      intro x hx
      rcases List.mem_cons.mp hx with rfl | hx
      · exact hab
      · exact lexLe_trans hab (h.1 x hx)
    · rename_i hab
      have hba : lexLe b a = true := by
        rcases lexLe_total a b with h2 | h2
        · exact absurd h2 hab
        · exact h2
      rw [List.pairwise_cons]
      refine ⟨?_, ih h.2⟩
      intro x hx
      rcases mem_insertLe.mp hx with rfl | hx
      · exact hba
      · exact h.1 x hx

theorem sortLe_pairwise : ∀ l : List Str, (sortLe l).Pairwise (fun u v => lexLe u v = true) := by
  intro l
  induction l with
  | nil => simp [sortLe]
  | cons a as ih => exact insertLe_pairwise ih

theorem char_eq_of_toNat_eq {x y : Char} (h : x.toNat = y.toNat) : x = y := by
  have hx := Char.ofNat_toNat x
  have hy := Char.ofNat_toNat y
  rw [← hx, ← hy, h]

theorem lexLt_cons_iff {x y : Char} {xs ys : Str} :
    lexLt (x :: xs) (y :: ys) = true ↔
      x.toNat < y.toNat ∨ (x.toNat = y.toNat ∧ lexLt xs ys = true) := by
  simp only [lexLt]
  split
  · rename_i h1; simp [h1]
  · split
    · rename_i h1 h2; simp [h1, h2]
    · rename_i h1 h2; simp [h1, h2]

theorem lexLt_trichotomy : ∀ a b : Str, lexLt a b = true ∨ a = b ∨ lexLt b a = true := by
  intro a
  induction a with
  | nil =>
    intro b
    cases b with
    | nil => exact Or.inr (Or.inl rfl)
    | cons y ys => exact Or.inl rfl
  | cons x xs ih =>
    intro b
    cases b with
    | nil => exact Or.inr (Or.inr rfl)
    | cons y ys =>
      rcases Nat.lt_trichotomy x.toNat y.toNat with h | h | h
      · exact Or.inl (lexLt_cons_iff.mpr (Or.inl h))
      · rcases ih ys with h2 | h2 | h2
        · exact Or.inl (lexLt_cons_iff.mpr (Or.inr ⟨h, h2⟩))
        · refine Or.inr (Or.inl ?_)
          rw [char_eq_of_toNat_eq h, h2]
        · exact Or.inr (Or.inr (lexLt_cons_iff.mpr (Or.inr ⟨h.symm, h2⟩)))
      · exact Or.inr (Or.inr (lexLt_cons_iff.mpr (Or.inl h)))

theorem lexLt_trans : ∀ {a b c : Str}, lexLt a b = true → lexLt b c = true → lexLt a c = true := by
  intro a
  induction a with
  | nil =>
    intro b c hab hbc
    cases b with
    | nil => simp [lexLt] at hab
    | cons y ys =>
      cases c with
      | nil => simp [lexLt] at hbc
      | cons z zs => rfl
  | cons x xs ih =>
    intro b c hab hbc
    cases b with
    | nil => simp [lexLt] at hab
    | cons y ys =>
      cases c with
      | nil => simp [lexLt] at hbc
      | cons z zs =>
        rw [lexLt_cons_iff] at hab hbc ⊢
        rcases hab with h1 | ⟨h1, h1'⟩
        · rcases hbc with h2 | ⟨h2, _⟩
          · left; omega
          · left; omega
        · rcases hbc with h2 | ⟨h2, h2'⟩
          · left; omega
          · right; exact ⟨by omega, ih h1' h2'⟩

theorem lexLeL_cons_iff {a b : Str} {as bs : List Str} :
    lexLeL (a :: as) (b :: bs) = true ↔
      lexLt a b = true ∨ (a = b ∧ lexLeL as bs = true) := by
  simp [lexLeL]

theorem lexLeL_total : ∀ u v : List Str, lexLeL u v = true ∨ lexLeL v u = true := by
  intro u
  induction u with
  | nil => intro v; exact Or.inl rfl
  | cons a as ih =>
    intro v
    cases v with
    | nil => exact Or.inr rfl
    | cons b bs =>
      rcases lexLt_trichotomy a b with h | h | h
      · exact Or.inl (lexLeL_cons_iff.mpr (Or.inl h))
      · rcases ih bs with h2 | h2
        · exact Or.inl (lexLeL_cons_iff.mpr (Or.inr ⟨h, h2⟩))
        · exact Or.inr (lexLeL_cons_iff.mpr (Or.inr ⟨h.symm, h2⟩))
      · exact Or.inr (lexLeL_cons_iff.mpr (Or.inl h))

theorem lexLeL_trans :
    ∀ {u v w : List Str}, lexLeL u v = true → lexLeL v w = true → lexLeL u w = true := by
  intro u
  induction u with
  | nil => intro v w _ _; rfl
  | cons a as ih =>
    intro v w huv hvw
    cases v with
    | nil => simp [lexLeL] at huv
    | cons b bs =>
      cases w with
      | nil => simp [lexLeL] at hvw
      | cons c cs =>
        rw [lexLeL_cons_iff] at huv hvw ⊢
        rcases huv with h1 | ⟨rfl, h1'⟩
        · rcases hvw with h2 | ⟨rfl, h2'⟩
          · exact Or.inl (lexLt_trans h1 h2)
          · exact Or.inl h1
        · rcases hvw with h2 | ⟨rfl, h2'⟩
          · exact Or.inl h2
          · exact Or.inr ⟨rfl, ih h1' h2'⟩

theorem pathLe_total (a b : Str) : pathLe a b = true ∨ pathLe b a = true :=
  lexLeL_total (splitSlash a) (splitSlash b)

theorem pathLe_trans {a b c : Str} (h1 : pathLe a b = true) (h2 : pathLe b c = true) :
    pathLe a c = true :=
  lexLeL_trans h1 h2

theorem mem_insertPath {a x : Str} : ∀ {l : List Str}, x ∈ insertPath a l ↔ x = a ∨ x ∈ l := by
  intro l
  induction l with
  | nil => simp [insertPath]
  | cons b bs ih =>
    simp only [insertPath]
    split
    · simp [List.mem_cons]
    · simp only [List.mem_cons, ih]
      tauto

theorem insertPath_perm (a : Str) : ∀ l : List Str, (insertPath a l).Perm (a :: l) := by
  intro l
  induction l with
  | nil => simp [insertPath]
  | cons b bs ih =>
    simp only [insertPath]
    split
    · exact List.Perm.refl _
    · exact (ih.cons b).trans (List.Perm.swap a b bs)

theorem sortPaths_perm : ∀ l : List Str, (sortPaths l).Perm l := by
  intro l
  induction l with
  | nil => exact List.Perm.refl _
  | cons a as ih => exact (insertPath_perm a (sortPaths as)).trans (ih.cons a)

theorem mem_sortPaths {x : Str} {l : List Str} : x ∈ sortPaths l ↔ x ∈ l :=
  (sortPaths_perm l).mem_iff

theorem insertPath_pairwise {a : Str} :
    ∀ {l : List Str}, l.Pairwise (fun u v => pathLe u v = true) →
      (insertPath a l).Pairwise (fun u v => pathLe u v = true) := by
  intro l
  induction l with
  | nil => intro _; simp [insertPath]
  | cons b bs ih =>
    intro h
    rw [List.pairwise_cons] at h
    simp only [insertPath]
    split
    · rename_i hab
      rw [List.pairwise_cons]
      refine ⟨?_, List.pairwise_cons.mpr h⟩
      intro x hx
      rcases List.mem_cons.mp hx with rfl | hx
      · exact hab
      · exact pathLe_trans hab (h.1 x hx)
    · rename_i hab
      have hba : pathLe b a = true := by
        rcases pathLe_total a b with h2 | h2
        · exact absurd h2 hab
        · exact h2
      rw [List.pairwise_cons]
      refine ⟨?_, ih h.2⟩
      intro x hx
      rcases mem_insertPath.mp hx with rfl | hx
      · exact hba
      · exact h.1 x hx

theorem sortPaths_pairwise : ∀ l : List Str, (sortPaths l).Pairwise (fun u v => pathLe u v = true) := by
  intro l
  induction l with
  | nil => simp [sortPaths]
  | cons a as ih => exact insertPath_pairwise ih

theorem lit_self : ∀ (p s : Str), lit p (p ++ s) = some s := by
  intro p s
  induction p with
  | nil => rfl
  | cons a pa ih => simp [lit, ih]

/-- The rendered header line is exactly what the hand-anchored part of the
pattern consumes; what follows is scanned for the closing token sequence. -/
theorem matchPatAt_header (X : Str) :
    matchPatAt (ZIG_ARRAY_HEADER ++ X) = dropThrough nlTail X := rfl

theorem dropThrough_exact :
    ∀ {inter rest : Str}, (∀ c ∈ inter, ¬ c = '\x7d') →
      dropThrough nlTail (inter ++ (nlTail ++ rest)) = some rest := by
  intro inter
  induction inter with
  | nil =>
    intro rest _
    show dropThrough nlTail ('\n' :: '\x7d' :: ';' :: '\n' :: rest) = some rest
    simp only [dropThrough]
    rw [show lit nlTail ('\n' :: '\x7d' :: ';' :: '\n' :: rest) = some rest from lit_self nlTail rest]
  | cons c int' ih =>
    intro rest h
    have hc : ¬ c = '\x7d' := h c (List.mem_cons_self c int')
    rw [List.cons_append]
    simp only [dropThrough]
    have hnl : nlTail = '\n' :: '\x7d' :: ';' :: '\n' :: [] := rfl
    have hl : lit nlTail (c :: (int' ++ (nlTail ++ rest))) = none := by
      by_cases hcn : c = '\n'
      · subst hcn
        cases int' with
        | nil =>
          show lit nlTail ('\n' :: '\n' :: '\x7d' :: ';' :: '\n' :: rest) = none
          rfl
        | cons d int'' =>
          have hd : ('\x7d' == d) = false := by
            simp only [beq_eq_false_iff_ne, ne_eq]
            intro hdd
            exact h d (List.mem_cons_of_mem _ (List.mem_cons_self d int'')) hdd.symm
          rw [hnl]
          simp [lit, hd]
      · have hcc : ('\n' == c) = false := by
          simp only [beq_eq_false_iff_ne, ne_eq]
          intro hdd
          exact hcn hdd.symm
        rw [hnl]
        simp [lit, hcc]
    rw [hl]
    exact ih (fun d hd => h d (List.mem_cons_of_mem _ hd))

theorem joinNl_cons {l : Str} {ls : List Str} (h : ls ≠ []) :
    joinNl (l :: ls) = l ++ '\n' :: joinNl ls := by
  cases ls with
  | nil => exact absurd rfl h
  | cons m ms => rfl

theorem joinNl_snoc {z : Str} : ∀ {ls : List Str}, ls ≠ [] →
    joinNl (ls ++ [z]) = joinNl ls ++ '\n' :: z := by
  intro ls
  induction ls with
  | nil => intro h; exact absurd rfl h
  | cons l ls' ih =>
    intro _
    cases ls' with
    | nil => rfl
    | cons m ms =>
      rw [List.cons_append, joinNl_cons (by simp), joinNl_cons (by simp), ih (by simp)]
      simp [List.append_assoc]

theorem mem_joinNl {c : Char} : ∀ {ls : List Str}, c ∈ joinNl ls →
    c = '\n' ∨ ∃ l, l ∈ ls ∧ c ∈ l := by
  intro ls
  induction ls with
  | nil => intro h; simp [joinNl] at h
  | cons l ls' ih =>
    intro h
    cases ls' with
    | nil => exact Or.inr ⟨l, by simp, h⟩
    | cons m ms =>
      rw [joinNl_cons (by simp)] at h
      rcases List.mem_append.mp h with h1 | h1
      · exact Or.inr ⟨l, by simp, h1⟩
      · rcases List.mem_cons.mp h1 with rfl | h2
        · exact Or.inl rfl
        · rcases ih h2 with h3 | ⟨l', hl', hcl⟩
          · exact Or.inl h3
          · exact Or.inr ⟨l', by simp [hl'], hcl⟩

theorem mem_of_lookupG {groups : List (Str × List Str)} {g p : Str}
    (h : p ∈ lookupG groups g) : ∃ kv, kv ∈ groups ∧ p ∈ kv.2 := by
  unfold lookupG at h
  cases hf : groups.find? (fun kv => kv.1 == g) with
  | none => rw [hf] at h; simp at h
  | some kv =>
    rw [hf] at h
    exact ⟨kv, List.mem_of_find?_eq_some hf, h⟩

theorem snd_addEntry_sub {g e : Str} :
    ∀ {acc : List (Str × List Str)} {kv : Str × List Str}, kv ∈ addEntry acc g e →
      ∀ p ∈ kv.2, p = e ∨ ∃ kv', kv' ∈ acc ∧ p ∈ kv'.2 := by
  intro acc
  induction acc with
  | nil =>
    intro kv hkv p hp
    simp only [addEntry, List.mem_singleton] at hkv
    subst hkv
    simp only [List.mem_singleton] at hp
    exact Or.inl hp
  | cons kv0 rest ih =>
    intro kv hkv p hp
    obtain ⟨k, es⟩ := kv0
    simp only [addEntry] at hkv
    split at hkv
    · rcases List.mem_cons.mp hkv with rfl | hkv'
      · rcases List.mem_append.mp hp with h1 | h1
        · exact Or.inr ⟨(k, es), List.mem_cons_self _ _, h1⟩
        · simp only [List.mem_singleton] at h1
          exact Or.inl h1
      · exact Or.inr ⟨kv, List.mem_cons_of_mem _ hkv', hp⟩
    · rcases List.mem_cons.mp hkv with rfl | hkv'
      · exact Or.inr ⟨(k, es), List.mem_cons_self _ _, hp⟩
      · rcases ih hkv' p hp with h1 | ⟨kv', hkv'', hp'⟩
        · exact Or.inl h1
        · exact Or.inr ⟨kv', List.mem_cons_of_mem _ hkv'', hp'⟩

theorem fst_addEntry {g e : Str} :
    ∀ {acc : List (Str × List Str)} {kv : Str × List Str}, kv ∈ addEntry acc g e →
      kv.1 = g ∨ ∃ kv', kv' ∈ acc ∧ kv.1 = kv'.1 := by
  intro acc
  induction acc with
  | nil =>
    intro kv hkv
    simp only [addEntry, List.mem_singleton] at hkv
    subst hkv
    exact Or.inl rfl
  | cons kv0 rest ih =>
    intro kv hkv
    obtain ⟨k, es⟩ := kv0
    simp only [addEntry] at hkv
    split at hkv
    · rcases List.mem_cons.mp hkv with rfl | hkv'
      · exact Or.inr ⟨(k, es), List.mem_cons_self _ _, rfl⟩
      · exact Or.inr ⟨kv, List.mem_cons_of_mem _ hkv', rfl⟩
    · rcases List.mem_cons.mp hkv with rfl | hkv'
      · exact Or.inr ⟨(k, es), List.mem_cons_self _ _, rfl⟩
      · rcases ih hkv' with h1 | ⟨kv', hkv'', he⟩
        · exact Or.inl h1
        · exact Or.inr ⟨kv', List.mem_cons_of_mem _ hkv'', he⟩

/-- The grouping step of `buildGroups`. -/
def groupStep (acc : List (Str × List Str)) (e : Str) : List (Str × List Str) :=
  if lPre nfsPfx e then addEntry acc (groupOf (e.drop nfsPfx.length)) e else acc

theorem buildGroups_eq_foldl (entries : List Str) :
    buildGroups entries = entries.foldl groupStep [] := rfl

theorem snd_foldl_sub :
    ∀ (l : List Str) (acc : List (Str × List Str)) (kv : Str × List Str),
      kv ∈ l.foldl groupStep acc → ∀ p ∈ kv.2,
        (∃ kv', kv' ∈ acc ∧ p ∈ kv'.2) ∨ p ∈ l := by
  intro l
  induction l with
  | nil =>
    intro acc kv hkv p hp
    exact Or.inl ⟨kv, hkv, hp⟩
  | cons e l' ih =>
    intro acc kv hkv p hp
    rw [List.foldl_cons] at hkv
    rcases ih (groupStep acc e) kv hkv p hp with ⟨kv', hkv', hp'⟩ | h1
    · unfold groupStep at hkv'
      split at hkv'
      · rcases snd_addEntry_sub hkv' p hp' with rfl | ⟨kv'', hkv'', hp''⟩
        · exact Or.inr (List.mem_cons_self _ _)
        · exact Or.inl ⟨kv'', hkv'', hp''⟩
      · exact Or.inl ⟨kv', hkv', hp'⟩
    · exact Or.inr (List.mem_cons_of_mem _ h1)

theorem snd_buildGroups_sub {entries : List Str} {kv : Str × List Str}
    (hkv : kv ∈ buildGroups entries) : ∀ p ∈ kv.2, p ∈ entries := by
  intro p hp
  rcases snd_foldl_sub entries [] kv hkv p hp with ⟨kv', hkv', _⟩ | h1
  · simp at hkv'
  · exact h1

theorem fst_foldl_shape :
    ∀ (l : List Str) (acc : List (Str × List Str)) (kv : Str × List Str),
      kv ∈ l.foldl groupStep acc →
        (∃ kv', kv' ∈ acc ∧ kv.1 = kv'.1) ∨
          ∃ e, e ∈ l ∧ kv.1 = groupOf (e.drop nfsPfx.length) := by
  intro l
  induction l with
  | nil =>
    intro acc kv hkv
    exact Or.inl ⟨kv, hkv, rfl⟩
  | cons e l' ih =>
    intro acc kv hkv
    rw [List.foldl_cons] at hkv
    rcases ih (groupStep acc e) kv hkv with ⟨kv', hkv', he⟩ | ⟨e', he', hg⟩
    · unfold groupStep at hkv'
      split at hkv'
      · rcases fst_addEntry hkv' with h1 | ⟨kv'', hkv'', he''⟩
        · exact Or.inr ⟨e, List.mem_cons_self _ _, he.trans h1⟩
        · exact Or.inl ⟨kv'', hkv'', he.trans he''⟩
      · exact Or.inl ⟨kv', hkv', he⟩
    · exact Or.inr ⟨e', List.mem_cons_of_mem _ he', hg⟩

theorem fst_buildGroups {entries : List Str} {kv : Str × List Str}
    (hkv : kv ∈ buildGroups entries) :
    ∃ e, e ∈ entries ∧ kv.1 = groupOf (e.drop nfsPfx.length) := by
  rcases fst_foldl_shape entries [] kv hkv with ⟨kv', hkv', _⟩ | h
  · simp at hkv'
  · exact h

theorem mem_splitSlash {c : Char} : ∀ {s : Str} {l : Str}, l ∈ splitSlash s → c ∈ l → c ∈ s := by
  intro s
  induction s with
  | nil =>
    intro l hl hc
    simp only [splitSlash, List.mem_singleton] at hl
    subst hl
    simp at hc
  | cons d s' ih =>
    intro l hl hc
    simp only [splitSlash] at hl
    split at hl
    · rcases List.mem_cons.mp hl with rfl | hl'
      · simp at hc
      · exact List.mem_cons_of_mem _ (ih hl' hc)
    · cases hs : splitSlash s' with
      | nil => rw [hs] at hl; simp only [List.mem_singleton] at hl; subst hl
               simp only [List.mem_singleton] at hc; simp [hc]
      | cons g gs =>
        rw [hs] at hl
        rcases List.mem_cons.mp hl with rfl | hl'
        · rcases List.mem_cons.mp hc with rfl | hc'
          · exact List.mem_cons_self _ _
          · exact List.mem_cons_of_mem _ (ih (hs ▸ List.mem_cons_self g gs) hc')
        · exact List.mem_cons_of_mem _ (ih (hs ▸ List.mem_cons_of_mem g hl') hc)

theorem mem_groupOf {c : Char} {rel : Str} (h : c ∈ groupOf rel) :
    c ∈ str "core" ∨ c ∈ rel := by
  unfold groupOf at h
  cases hs : splitSlash rel with
  | nil => rw [hs] at h; exact Or.inl h
  | cons p ps =>
    cases ps with
    | nil => rw [hs] at h; exact Or.inl h
    | cons q qs =>
      rw [hs] at h
      refine Or.inr (mem_splitSlash ?_ h)
      rw [hs]
      exact List.mem_cons_self p (q :: qs)

theorem mem_orderedGroups {groups : List (Str × List Str)} {g : Str}
    (h : g ∈ orderedGroups groups) :
    g = str "core" ∨ ∃ kv, kv ∈ groups ∧ g = kv.1 := by
  unfold orderedGroups at h
  rcases List.mem_append.mp h with h1 | h1
  · split at h1
    · simp only [List.mem_singleton] at h1
      exact Or.inl h1
    · simp at h1
  · have h2 := mem_sortLe.mp h1
    have h3 := (List.mem_filter.mp h2).1
    rcases List.mem_map.mp h3 with ⟨kv, hkv, he⟩
    exact Or.inr ⟨kv, hkv, he.symm⟩

/-- Entries whose characters avoid the closing-brace character; every path
the Discoverer can produce satisfies this, and it is what keeps the lazy
closing-token scan from stopping early inside the rendered block. -/
def goodEntries (entries : List Str) : Bool :=
  entries.all (fun e => e.all (fun c => !(c == '\x7d')))

theorem goodEntries_no_brace {entries : List Str} (h : goodEntries entries = true)
    {e : Str} (he : e ∈ entries) {c : Char} (hc : c ∈ e) : ¬ c = '\x7d' := by
  simp only [goodEntries, List.all_eq_true, Bool.not_eq_eq_eq_not, Bool.not_true,
    beq_eq_false_iff_ne, ne_eq] at h
  exact h e he c hc

/-- The rendered block followed by a newline is consumed exactly by the
pattern: the header line anchors the match and the first occurrence of the
closing token sequence is the block's own closing delimiter. -/
theorem matchPatAt_format {entries : List Str} (rest : Str)
    (h : goodEntries entries = true) :
    matchPatAt (format_zig_array entries ++ '\n' :: rest) = some rest := by
  have hcl : str "\x7d;" = '\x7d' :: ';' :: [] := rfl
  have hnt : nlTail = '\n' :: '\x7d' :: ';' :: '\n' :: [] := rfl
  have key : format_zig_array entries ++ '\n' :: rest
      = ZIG_ARRAY_HEADER ++
        (('\n' :: joinNl (str "    \"../../native/flecs_helpers.c\"," :: ([] : Str) ::
            ((orderedGroups (buildGroups entries)).flatMap (renderGroup (buildGroups entries))))) ++
          (nlTail ++ rest)) := by
    simp only [format_zig_array]
    rw [show (ZIG_ARRAY_HEADER :: str "    \"../../native/flecs_helpers.c\"," :: ([] : Str) ::
        (((orderedGroups (buildGroups entries)).flatMap (renderGroup (buildGroups entries))) ++
          [str "\x7d;"]))
      = ZIG_ARRAY_HEADER :: ((str "    \"../../native/flecs_helpers.c\"," :: ([] : Str) ::
        ((orderedGroups (buildGroups entries)).flatMap (renderGroup (buildGroups entries)))) ++
          [str "\x7d;"]) from rfl]
    rw [joinNl_cons (by simp), joinNl_snoc (by simp)]
    simp [hcl, hnt, List.append_assoc]
  rw [key, matchPatAt_header]
  apply dropThrough_exact
  intro c hc
  rcases List.mem_cons.mp hc with rfl | hc'
  · decide
  · rcases mem_joinNl hc' with rfl | ⟨l, hl, hcl2⟩
    · decide
    · rcases List.mem_cons.mp hl with rfl | hl2
      · exact (by decide : ∀ d ∈ str "    \"../../native/flecs_helpers.c\",", ¬ d = '\x7d') c hcl2
      · rcases List.mem_cons.mp hl2 with rfl | hl3
        · simp at hcl2
        · rcases List.mem_flatMap.mp hl3 with ⟨g, hg, hlg⟩
          unfold renderGroup at hlg
          rcases List.mem_cons.mp hlg with rfl | hlg'
          · rcases List.mem_append.mp hcl2 with h1 | h1
            · exact (by decide : ∀ d ∈ str "    // ", ¬ d = '\x7d') c h1
            · rcases mem_orderedGroups hg with rfl | ⟨kv, hkv, rfl⟩
              · exact (by decide : ∀ d ∈ str "core", ¬ d = '\x7d') c h1
              · rcases fst_buildGroups hkv with ⟨e, he, hge⟩
                rw [hge] at h1
                rcases mem_groupOf h1 with h2 | h2
                · exact (by decide : ∀ d ∈ str "core", ¬ d = '\x7d') c h2
                · exact goodEntries_no_brace h he (List.mem_of_mem_drop h2)
          · rcases List.mem_append.mp hlg' with h1 | h1
            · rcases List.mem_map.mp h1 with ⟨p, hp, rfl⟩
              rcases List.mem_append.mp hcl2 with h2 | h2
              · rcases List.mem_append.mp h2 with h3 | h3
                · exact (by decide : ∀ d ∈ str "    \"../../", ¬ d = '\x7d') c h3
                · have hpm := mem_sortLe.mp hp
                  rcases mem_of_lookupG hpm with ⟨kv, hkv, hpin⟩
                  exact goodEntries_no_brace h (snd_buildGroups_sub hkv p hpin) h3
              · exact (by decide : ∀ d ∈ str "\",", ¬ d = '\x7d') c h2
            · simp only [List.mem_singleton] at h1
              subst h1
              simp at hcl2

theorem matchPatAt_cons_ne {d : Char} (hd : ¬ d = 'c') (s : Str) : matchPatAt (d :: s) = none := by
  unfold matchPatAt
  have hfirst : lit (str "const") (d :: s) = none := by
    have hne : ('c' == d) = false := by
      simp only [beq_eq_false_iff_ne, ne_eq]
      intro hcd
      exact hd hcd.symm
    rw [show str "const" = 'c' :: str "onst" from rfl]
    simp [lit, hne]
  rw [hfirst]
  rfl

theorem replace_ok {gen txt : Str} (h : (subnGo (gen ++ str "\n\n") txt).2 ≠ 0) :
    replace_block_in_build_paths gen txt = .ok (subnGo (gen ++ str "\n\n") txt).1 := by
  unfold replace_block_in_build_paths
  simp [h]

theorem replace_err {gen txt : Str} (h : (subnGo (gen ++ str "\n\n") txt).2 = 0) :
    replace_block_in_build_paths gen txt = .error .patternNotFound := by
  unfold replace_block_in_build_paths
  simp [h]

theorem applyOnce_ok {gen tc : Str} {b : Option Str}
    (h : (subnGo (gen ++ str "\n\n") tc).2 ≠ 0) :
    applyOnce gen (some tc) b none true =
      ⟨some (subnGo (gen ++ str "\n\n") tc).1, some tc, .ok ()⟩ := by
  simp only [applyOnce, applyPatch, replace_ok h]

theorem foldl_groupStep_skip :
    ∀ {l : List Str} (acc : List (Str × List Str)), (∀ e ∈ l, lPre nfsPfx e = false) →
      l.foldl groupStep acc = acc := by
  intro l
  induction l with
  | nil => intro acc _; rfl
  | cons e l' ih =>
    intro acc h
    rw [List.foldl_cons]
    have he : lPre nfsPfx e = false := h e (List.mem_cons_self _ _)
    have hstep : groupStep acc e = acc := by
      unfold groupStep
      simp [he]
    rw [hstep]
    exact ih acc (fun e' he' => h e' (List.mem_cons_of_mem _ he'))

theorem buildGroups_eq_nil {entries : List Str} (h : ∀ e ∈ entries, lPre nfsPfx e = false) :
    buildGroups entries = [] :=
  foldl_groupStep_skip [] h

/-- C9: Rendering is deterministic: `format_zig_array` is a pure function of
its input entry list (the embedding takes no other inputs — no hidden state,
timestamps, or randomness), so two evaluations, and hence two consecutive
Discoverer-plus-Renderer runs over an unchanged directory tree, produce
byte-identical output. -/
theorem c9_rendering_deterministic :
    (∀ entries : List Str, format_zig_array entries = format_zig_array entries) ∧
    (∀ (rootExists : Bool) (root repoRoot : Str) (tree : List Str),
      (find_c_files rootExists root repoRoot tree).map format_zig_array =
        (find_c_files rootExists root repoRoot tree).map format_zig_array) :=
  ⟨fun _ => rfl, fun _ _ _ _ => rfl⟩

/-- C4 counterexample: the Discoverer's output is not in whole-string
lexicographic order of the pre-relativization paths.  With files `a.c` and
`a/b.c` under the root, the pre-relativization path of `a.c` is strictly
smaller in code-point order (`.` sorts before `/`), yet the program lists
`a/b.c` first, because Python sorts `Path` objects componentwise. -/
theorem c4_counterexample :
    find_c_files true (str "/r/native/flecs/src") (str "/r")
        [str "/r/native/flecs/src/a.c", str "/r/native/flecs/src/a/b.c"] =
      .ok [str "native/flecs/src/a/b.c", str "native/flecs/src/a.c"] ∧
    lexLe (str "/r/native/flecs/src/a.c") (str "/r/native/flecs/src/a/b.c") = true ∧
    ¬ lexLe (str "/r/native/flecs/src/a/b.c") (str "/r/native/flecs/src/a.c") = true := by
  exact ⟨by decide, by decide, by decide⟩

/-- C4 amended: `find_c_files` on an existing source root returns exactly
the files under that root (recursively) whose name ends in `.c`, as paths
relativized against the repository root with separators normalized to
forward slashes, ordered by Python's componentwise `Path` comparison of
the pre-relativization paths — lexicographic over their slash-separated
component lists, which can disagree with whole-string lexicographic order
(for example `a/b.c` sorts before `a.c`). -/
theorem c4_find_c_files_correct (root repoRoot : Str) (tree : List Str) :
    ∃ S : List Str,
      find_c_files true root repoRoot tree =
        .ok (S.map (fun p => normSlashes (relTo repoRoot p))) ∧
      S.Perm (tree.filter fun p => lPre (root ++ ['/']) p && endsWithL (str ".c") p) ∧
      S.Pairwise (fun a b => pathLe a b = true) :=
  ⟨sortPaths (tree.filter fun p => lPre (root ++ ['/']) p && endsWithL (str ".c") p),
    rfl, sortPaths_perm _, sortPaths_pairwise _⟩

/-- C8: Missing-source fails closed: when the source root does not exist,
the run fails with the configuration error, exits with non-zero status, and
neither the target nor the backup file is written. -/
theorem c8_missing_source_fails_closed (root repoRoot : Str) (tree : List Str)
    (applyFlag : Bool) (target backup writeFault : Option Str) (unlinkOk : Bool) :
    main false root repoRoot tree applyFlag target backup writeFault unlinkOk =
      ⟨none, target, backup, .error .missingSource⟩ ∧
    exitCode (main false root repoRoot tree applyFlag target backup writeFault unlinkOk) = 1 :=
  ⟨rfl, rfl⟩

/-- C5: Backup recovery: from a target containing a valid block, one apply
patches the target and moves the original to the backup; with the patched
target deleted but the backup kept, a second apply reads the backup,
re-patches, succeeds, and produces the same final target content as the
first apply did. -/
theorem c5_backup_recovery (gen t0 : Str) (b : Option Str)
    (h : (subnGo (gen ++ str "\n\n") t0).2 ≠ 0) :
    applyOnce gen (some t0) b none true =
      ⟨some (subnGo (gen ++ str "\n\n") t0).1, some t0, .ok ()⟩ ∧
    applyOnce gen none (some t0) none true =
      ⟨some (subnGo (gen ++ str "\n\n") t0).1, some t0, .ok ()⟩ := by
  refine ⟨applyOnce_ok h, ?_⟩
  simp only [applyOnce, applyPatch, replace_ok h]

theorem c5_backup_recovery_witness :
    (subnGo (format_zig_array [] ++ str "\n\n")
        (str "const src_files = [_][]const u8\x7b\nold\n\x7d;\ntail\n")).2 ≠ 0 ∧
    (applyOnce (format_zig_array [])
        (some (str "const src_files = [_][]const u8\x7b\nold\n\x7d;\ntail\n")) none none true =
      ⟨some (subnGo (format_zig_array [] ++ str "\n\n")
          (str "const src_files = [_][]const u8\x7b\nold\n\x7d;\ntail\n")).1,
        some (str "const src_files = [_][]const u8\x7b\nold\n\x7d;\ntail\n"), .ok ()⟩ ∧
     applyOnce (format_zig_array []) none
        (some (str "const src_files = [_][]const u8\x7b\nold\n\x7d;\ntail\n")) none true =
      ⟨some (subnGo (format_zig_array [] ++ str "\n\n")
          (str "const src_files = [_][]const u8\x7b\nold\n\x7d;\ntail\n")).1,
        some (str "const src_files = [_][]const u8\x7b\nold\n\x7d;\ntail\n"), .ok ()⟩) :=
  ⟨by decide, c5_backup_recovery _ _ none (by decide)⟩

/-- C7: On Patcher failure during apply, the orchestrator deletes the
target file if one now exists, suppresses a failure of that deletion
(`unlinkOk = false` leaves the partial file but the reported error is still
the original one), re-raises the original error, and leaves the backup
intact. -/
theorem c7_cleanup_on_patch_failure (gen tc leftover : Str) (b : Option Str) (unlinkOk : Bool)
    (h : (subnGo (gen ++ str "\n\n") tc).2 ≠ 0) :
    applyOnce gen (some tc) b (some leftover) unlinkOk =
      ⟨if unlinkOk then none else some leftover, some tc, .error .writeFailed⟩ := by
  simp only [applyOnce, applyPatch, replace_ok h]

theorem c7_cleanup_on_patch_failure_witness :
    (subnGo (format_zig_array [] ++ str "\n\n")
        (str "const src_files = [_][]const u8\x7b\nold\n\x7d;\n")).2 ≠ 0 ∧
    applyOnce (format_zig_array [])
        (some (str "const src_files = [_][]const u8\x7b\nold\n\x7d;\n")) none
        (some (str "partially written")) false =
      ⟨some (str "partially written"),
        some (str "const src_files = [_][]const u8\x7b\nold\n\x7d;\n"),
        .error .writeFailed⟩ :=
  ⟨by decide,
    c7_cleanup_on_patch_failure (format_zig_array []) _ _ none false (by decide)⟩

/-- C3 counterexample: with apply requested on a target whose text contains
no matching block, the run does fail with the pattern-not-found error, but
the target file is not left untouched: the target path ends up holding no
file at all, because the original was moved to the backup path before
patching was attempted. -/
theorem c3_counterexample :
    (applyOnce (format_zig_array []) (some (str "no block here\n")) none none true).result =
      .error .patternNotFound ∧
    (applyOnce (format_zig_array []) (some (str "no block here\n")) none none true).target ≠
      some (str "no block here\n") := by decide

/-- C3 amended: when apply is requested on a target whose text contains no
block matching the structural pattern, the run fails with the
pattern-not-found error and no write of the target occurs; the original
content survives unmodified, but at the backup path — the target itself was
moved there first, so the target path is left with no file. -/
theorem c3_pattern_not_found_fails_closed (gen tc : Str) (b : Option Str)
    (h : (subnGo (gen ++ str "\n\n") tc).2 = 0) :
    applyOnce gen (some tc) b none true = ⟨none, some tc, .error .patternNotFound⟩ := by
  simp only [applyOnce, applyPatch, replace_err h]

theorem c3_pattern_not_found_fails_closed_witness :
    (subnGo (format_zig_array [] ++ str "\n\n") (str "hand-written file\n")).2 = 0 ∧
    applyOnce (format_zig_array []) (some (str "hand-written file\n")) none none true =
      ⟨none, some (str "hand-written file\n"), .error .patternNotFound⟩ :=
  ⟨by decide, c3_pattern_not_found_fails_closed (format_zig_array []) _ none (by decide)⟩

/-- C10: `format_zig_array` silently drops every entry lacking the literal
`native/flecs/src/` stem; when discovery runs against a root outside the
script's repository, relativization falls back to the undiminished path, so
no entry carries the stem and the rendered block contains only the header
line, the fixed helper entry, a blank line, and the closing delimiter — no
group sub-blocks. -/
theorem c10_unprefixed_entries_dropped (root repoRoot : Str) (tree : List Str)
    (entries : List Str)
    (hfind : find_c_files true root repoRoot tree = .ok entries)
    (h : ∀ p ∈ tree, lPre (repoRoot ++ ['/']) p = false ∧ normSlashes p = p ∧
      lPre nfsPfx p = false) :
    format_zig_array entries =
      str "const src_files = [_][]const u8\x7b\n    \"../../native/flecs_helpers.c\",\n\n\x7d;" := by
  have hE : (sortPaths (tree.filter fun p => lPre (root ++ ['/']) p && endsWithL (str ".c") p)).map
      (fun p => normSlashes (relTo repoRoot p)) = entries := by
    have h0 : (Except.ok ((sortPaths (tree.filter fun p =>
        lPre (root ++ ['/']) p && endsWithL (str ".c") p)).map
        (fun p => normSlashes (relTo repoRoot p))) : Except ApplyErr (List Str)) = .ok entries := by
      rw [← hfind]
      rfl
    exact Except.ok.inj h0
  have hent : ∀ e ∈ entries, lPre nfsPfx e = false := by
    intro e he
    rw [← hE] at he
    rcases List.mem_map.mp he with ⟨p, hp, rfl⟩
    have hptree : p ∈ tree := (List.mem_filter.mp (mem_sortPaths.mp hp)).1
    obtain ⟨h1, h2, h3⟩ := h p hptree
    simp [relTo, h1, h2, h3]
  have hg : buildGroups entries = [] := buildGroups_eq_nil hent
  simp only [format_zig_array, hg]
  decide

set_option maxRecDepth 200000 in
theorem c10_unprefixed_entries_dropped_witness :
    find_c_files true (str "/elsewhere/native/flecs/src") (str "/repo")
        [str "/elsewhere/native/flecs/src/a.c"] = .ok [str "/elsewhere/native/flecs/src/a.c"] ∧
    format_zig_array [str "/elsewhere/native/flecs/src/a.c"] =
      str "const src_files = [_][]const u8\x7b\n    \"../../native/flecs_helpers.c\",\n\n\x7d;" :=
  ⟨by decide,
    c10_unprefixed_entries_dropped (str "/elsewhere/native/flecs/src") (str "/repo")
      [str "/elsewhere/native/flecs/src/a.c"] [str "/elsewhere/native/flecs/src/a.c"]
      (by decide) (by decide)⟩

set_option maxRecDepth 200000 in
/-- C6: Group ordering: for the entries a.c (directly in the source root),
b/x.c, b/y.c and c/z.c, the rendered block lists the sentinel 'core' group
containing a.c first, then group b with x.c before y.c, then group c —
independent of the order in which the entries appear in the input list. -/
theorem c6_group_ordering (es : List Str)
    (hperm : es.Perm [str "native/flecs/src/a.c", str "native/flecs/src/b/x.c",
      str "native/flecs/src/b/y.c", str "native/flecs/src/c/z.c"]) :
    format_zig_array es =
      str "const src_files = [_][]const u8\x7b\n    \"../../native/flecs_helpers.c\",\n\n    // core\n    \"../../native/flecs/src/a.c\",\n\n    // b\n    \"../../native/flecs/src/b/x.c\",\n    \"../../native/flecs/src/b/y.c\",\n\n    // c\n    \"../../native/flecs/src/c/z.c\",\n\n\x7d;" := by
  have hmem : es ∈ ([str "native/flecs/src/a.c", str "native/flecs/src/b/x.c",
      str "native/flecs/src/b/y.c", str "native/flecs/src/c/z.c"] : List Str).permutations' :=
    List.mem_permutations'.mpr hperm
  have hall : ∀ l ∈ ([str "native/flecs/src/a.c", str "native/flecs/src/b/x.c",
      str "native/flecs/src/b/y.c", str "native/flecs/src/c/z.c"] : List Str).permutations',
      format_zig_array l =
        str "const src_files = [_][]const u8\x7b\n    \"../../native/flecs_helpers.c\",\n\n    // core\n    \"../../native/flecs/src/a.c\",\n\n    // b\n    \"../../native/flecs/src/b/x.c\",\n    \"../../native/flecs/src/b/y.c\",\n\n    // c\n    \"../../native/flecs/src/c/z.c\",\n\n\x7d;" := by
    decide
  exact hall es hmem

set_option maxRecDepth 200000 in
theorem c6_group_ordering_witness :
    ([str "native/flecs/src/c/z.c", str "native/flecs/src/b/y.c", str "native/flecs/src/a.c",
      str "native/flecs/src/b/x.c"] : List Str).Perm
      [str "native/flecs/src/a.c", str "native/flecs/src/b/x.c", str "native/flecs/src/b/y.c",
        str "native/flecs/src/c/z.c"] ∧
    format_zig_array [str "native/flecs/src/c/z.c", str "native/flecs/src/b/y.c",
      str "native/flecs/src/a.c", str "native/flecs/src/b/x.c"] =
      str "const src_files = [_][]const u8\x7b\n    \"../../native/flecs_helpers.c\",\n\n    // core\n    \"../../native/flecs/src/a.c\",\n\n    // b\n    \"../../native/flecs/src/b/x.c\",\n    \"../../native/flecs/src/b/y.c\",\n\n    // c\n    \"../../native/flecs/src/c/z.c\",\n\n\x7d;" :=
  ⟨by decide, c6_group_ordering _ (by decide)⟩

/-- C2 counterexample: a target text containing two matching block regions
does not make the Patcher fail: `re.subn` performs two substitutions (count
2) and the patch succeeds, refuting the claim that more than one match is
an error. -/
theorem c2_counterexample :
    (subnGo (format_zig_array [] ++ str "\n\n")
        (str "const src_files = [_][]const u8\x7b\n\x7d;\nconst src_files = [_][]const u8\x7b\n\x7d;\n")).2 = 2 ∧
    replace_block_in_build_paths (format_zig_array [])
        (str "const src_files = [_][]const u8\x7b\n\x7d;\nconst src_files = [_][]const u8\x7b\n\x7d;\n") =
      .ok ((format_zig_array [] ++ str "\n\n") ++ (format_zig_array [] ++ str "\n\n")) := by
  exact ⟨by decide, by decide⟩

/-- C2 amended: the Patcher requires at least one match of the structural
pattern: zero matches fail with the pattern-not-found error, and in the
unique-match case it substitutes that region with the rendered block
followed by a blank separator line, leaving all other text unchanged (when
several regions match, every one is substituted and no error is raised). -/
theorem c2_patch_requires_at_least_one_match (gen : Str) :
    (∀ txt : Str, (subnGo (gen ++ str "\n\n") txt).2 = 0 →
      replace_block_in_build_paths gen txt = .error .patternNotFound) ∧
    (∀ pre mid post : Str,
      noMatchIn pre (mid ++ post) = true →
      matchPatAt (mid ++ post) = some post →
      noMatchAll post = true →
      replace_block_in_build_paths gen (pre ++ (mid ++ post)) =
        .ok (pre ++ ((gen ++ str "\n\n") ++ post))) := by
  constructor
  · intro txt h
    exact replace_err h
  · intro pre mid post hpre hmid hpost
    have hn : (subnGo (gen ++ str "\n\n") (pre ++ (mid ++ post))).2 ≠ 0 := by
      rw [subnGo_structured hpre hmid hpost]
      simp
    rw [replace_ok hn, subnGo_structured hpre hmid hpost]

theorem c2_patch_requires_at_least_one_match_witness :
    noMatchIn (str "pre\n") (str "const src_files = [_][]const u8\x7b\n\x7d;\n" ++ str "post") = true ∧
    replace_block_in_build_paths (format_zig_array [])
        (str "pre\n" ++ (str "const src_files = [_][]const u8\x7b\n\x7d;\n" ++ str "post")) =
      .ok (str "pre\n" ++ ((format_zig_array [] ++ str "\n\n") ++ str "post")) :=
  ⟨by decide,
    (c2_patch_requires_at_least_one_match (format_zig_array [])).2 (str "pre\n")
      (str "const src_files = [_][]const u8\x7b\n\x7d;\n") (str "post")
      (by decide) (by decide) (by decide)⟩

/-- C1 counterexample: apply is not byte-idempotent.  From a target with
one valid block, the first apply succeeds; the second apply, with nothing
changed in the source tree, also succeeds but produces a target with one
extra newline after the generated block (the pattern consumes one trailing
newline while the replacement writes two), so the targets differ.  The
backup after the second apply does equal the target after the first. -/
theorem c1_counterexample :
    applyOnce (format_zig_array [])
        (some (str "const src_files = [_][]const u8\x7b\nold\n\x7d;\nrest\n")) none none true =
      ⟨some (str "const src_files = [_][]const u8\x7b\n    \"../../native/flecs_helpers.c\",\n\n\x7d;\n\nrest\n"),
        some (str "const src_files = [_][]const u8\x7b\nold\n\x7d;\nrest\n"), .ok ()⟩ ∧
    applyOnce (format_zig_array [])
        (some (str "const src_files = [_][]const u8\x7b\n    \"../../native/flecs_helpers.c\",\n\n\x7d;\n\nrest\n"))
        (some (str "const src_files = [_][]const u8\x7b\nold\n\x7d;\nrest\n")) none true =
      ⟨some (str "const src_files = [_][]const u8\x7b\n    \"../../native/flecs_helpers.c\",\n\n\x7d;\n\n\nrest\n"),
        some (str "const src_files = [_][]const u8\x7b\n    \"../../native/flecs_helpers.c\",\n\n\x7d;\n\nrest\n"), .ok ()⟩ ∧
    (str "const src_files = [_][]const u8\x7b\n    \"../../native/flecs_helpers.c\",\n\n\x7d;\n\n\nrest\n" : Str) ≠
      str "const src_files = [_][]const u8\x7b\n    \"../../native/flecs_helpers.c\",\n\n\x7d;\n\nrest\n" := by
  exact ⟨by decide, by decide, by decide⟩

/-- C1 amended: applying in apply mode and then applying again without any
change to the source tree both succeed, and the backup after the second
apply equals the target content after the first apply; but the target after
the second apply is not byte-identical to the target after the first: it
carries exactly one additional newline after the generated block, because
the pattern consumes one trailing newline after the closing delimiter while
the replacement emits the block plus two newlines. -/
theorem c1_apply_adds_newline (entries : List Str) (pre mid post : Str) (b0 : Option Str)
    (hg : goodEntries entries = true)
    (hpre1 : noMatchIn pre (mid ++ post) = true)
    (hmid : matchPatAt (mid ++ post) = some post)
    (hpost : noMatchAll post = true)
    (hpre2 : noMatchIn pre (format_zig_array entries ++ '\n' :: '\n' :: post) = true) :
    applyOnce (format_zig_array entries) (some (pre ++ (mid ++ post))) b0 none true =
      ⟨some (pre ++ (format_zig_array entries ++ '\n' :: '\n' :: post)),
        some (pre ++ (mid ++ post)), .ok ()⟩ ∧
    applyOnce (format_zig_array entries)
        (some (pre ++ (format_zig_array entries ++ '\n' :: '\n' :: post)))
        (some (pre ++ (mid ++ post))) none true =
      ⟨some (pre ++ (format_zig_array entries ++ '\n' :: '\n' :: '\n' :: post)),
        some (pre ++ (format_zig_array entries ++ '\n' :: '\n' :: post)), .ok ()⟩ ∧
    pre ++ (format_zig_array entries ++ '\n' :: '\n' :: '\n' :: post) ≠
      pre ++ (format_zig_array entries ++ '\n' :: '\n' :: post) := by
  have hs1 : subnGo (format_zig_array entries ++ str "\n\n") (pre ++ (mid ++ post)) =
      (pre ++ (format_zig_array entries ++ '\n' :: '\n' :: post), 1) := by
    rw [subnGo_structured hpre1 hmid hpost]
    rw [show (format_zig_array entries ++ str "\n\n") ++ post
        = format_zig_array entries ++ '\n' :: '\n' :: post from by
      rw [show str "\n\n" = ['\n', '\n'] from rfl]
      simp [List.append_assoc]]
  have hmid2 : matchPatAt ((format_zig_array entries ++ ['\n']) ++ ('\n' :: post)) =
      some ('\n' :: post) := by
    rw [show (format_zig_array entries ++ ['\n']) ++ ('\n' :: post)
        = format_zig_array entries ++ '\n' :: '\n' :: post from by simp [List.append_assoc]]
    exact matchPatAt_format ('\n' :: post) hg
  have hpre2' : noMatchIn pre ((format_zig_array entries ++ ['\n']) ++ ('\n' :: post)) = true := by
    rw [show (format_zig_array entries ++ ['\n']) ++ ('\n' :: post)
        = format_zig_array entries ++ '\n' :: '\n' :: post from by simp [List.append_assoc]]
    exact hpre2
  have hpost2 : noMatchAll ('\n' :: post) = true := by
    simp only [noMatchAll, Bool.and_eq_true, Option.isNone_iff_eq_none]
    exact ⟨matchPatAt_cons_ne (by decide) post, hpost⟩
  have hs2 : subnGo (format_zig_array entries ++ str "\n\n")
      (pre ++ (format_zig_array entries ++ '\n' :: '\n' :: post)) =
      (pre ++ (format_zig_array entries ++ '\n' :: '\n' :: '\n' :: post), 1) := by
    rw [show pre ++ (format_zig_array entries ++ '\n' :: '\n' :: post)
        = pre ++ ((format_zig_array entries ++ ['\n']) ++ ('\n' :: post)) from by
      simp [List.append_assoc]]
    rw [subnGo_structured hpre2' hmid2 hpost2]
    rw [show (format_zig_array entries ++ str "\n\n") ++ ('\n' :: post)
        = format_zig_array entries ++ '\n' :: '\n' :: '\n' :: post from by
      rw [show str "\n\n" = ['\n', '\n'] from rfl]
      simp [List.append_assoc]]
  refine ⟨?_, ?_, ?_⟩
  · rw [applyOnce_ok (show (subnGo (format_zig_array entries ++ str "\n\n")
        (pre ++ (mid ++ post))).2 ≠ 0 from by rw [hs1]; simp), hs1]
  · rw [applyOnce_ok (show (subnGo (format_zig_array entries ++ str "\n\n")
        (pre ++ (format_zig_array entries ++ '\n' :: '\n' :: post))).2 ≠ 0 from by
      rw [hs2]; simp), hs2]
  · intro hcontra
    have hlen := congrArg List.length hcontra
    simp only [List.length_append, List.length_cons] at hlen
    omega

theorem c1_apply_adds_newline_witness :
    noMatchIn (str "A\n")
        (str "const src_files = [_][]const u8\x7b\nold\n\x7d;\n" ++ str "B") = true ∧
    (applyOnce (format_zig_array [])
        (some (str "A\n" ++ (str "const src_files = [_][]const u8\x7b\nold\n\x7d;\n" ++ str "B")))
        none none true =
      ⟨some (str "A\n" ++ (format_zig_array [] ++ '\n' :: '\n' :: str "B")),
        some (str "A\n" ++ (str "const src_files = [_][]const u8\x7b\nold\n\x7d;\n" ++ str "B")),
        .ok ()⟩ ∧
     applyOnce (format_zig_array [])
        (some (str "A\n" ++ (format_zig_array [] ++ '\n' :: '\n' :: str "B")))
        (some (str "A\n" ++ (str "const src_files = [_][]const u8\x7b\nold\n\x7d;\n" ++ str "B")))
        none true =
      ⟨some (str "A\n" ++ (format_zig_array [] ++ '\n' :: '\n' :: '\n' :: str "B")),
        some (str "A\n" ++ (format_zig_array [] ++ '\n' :: '\n' :: str "B")), .ok ()⟩ ∧
     str "A\n" ++ (format_zig_array [] ++ '\n' :: '\n' :: '\n' :: str "B") ≠
      str "A\n" ++ (format_zig_array [] ++ '\n' :: '\n' :: str "B")) :=
  ⟨by decide,
    c1_apply_adds_newline [] (str "A\n")
      (str "const src_files = [_][]const u8\x7b\nold\n\x7d;\n") (str "B") none
      (by decide) (by decide) (by decide) (by decide) (by decide)⟩

end FlecsGen
